import Mathlib

/-!
Shallow embedding of the support-bundle dispatch engine of
`github.com/siderolabs/go-talos-support`.

The embedding covers:

* `support/collectors/collectors.go`: the `Collector` task abstraction
  (`NewCollector`, `Collector.Run`, `Collector.Source`, the `String`
  display identity) and the composition operations `WithFolder`,
  `WithNode`, `WithSource`.
* `support/bundle/bundle.go` / `options.go`: the `Options` run
  configuration and the `Archive` output-sink interface; the in-memory
  `testArchive` used by the repository's own tests.
* `support.go`: `CreateSupportBundle` and `calculateTotals`.

Go byte slices are modelled as `List Nat` (with `Option` distinguishing
the nil slice), Go `error` values as `Option GoError`, the mutable output
archive as an explicit sink state threaded through an `Archive` record of
`write`/`close` functions, and the concurrent run of the worker pool as a
small-step transition relation `Step` on an explicit `EngineState`, with
interleaving nondeterminism (which worker receives the next task, when the
context is cancelled, which `select` branch fires) resolved by the choice
of trace.  A complete call of `CreateSupportBundle` is a `Step`-trace from
the initial state produced by `CreateSupportBundleStart`.
-/

namespace Support

/-- A Go `[]byte` payload.  The distinction between a nil slice and a
non-nil slice is carried by `Option Bytes` where it matters. -/
abbrev Bytes := List Nat

/-- Go `error` values as the engine observes them: `context.Canceled`,
`context.DeadlineExceeded`, or any other error (carried as a message). -/
inductive GoError where
  | canceled
  | deadlineExceeded
  | msg (s : String)
deriving DecidableEq, Repr

/-- `context.Context` as collector bodies observe it: whether the context
is done, and the node metadata accumulated by `client.WithNode`. -/
structure Ctx where
  cancelled : Bool
  nodes : List String
deriving DecidableEq, Repr

/-- `client.WithNode ctx node`: annotate the context with the target node
(gRPC metadata) before invoking a collector body. -/
def clientWithNode (ctx : Ctx) (node : String) : Ctx :=
  { ctx with nodes := ctx.nodes ++ [node] }

/-- The context `CreateSupportBundle` passes to collectors while it has
not been cancelled: not done, no node annotation of its own. -/
def ctx0 : Ctx := { cancelled := false, nodes := [] }

/-- `bundle.Archive`: the output-sink interface, over an explicit sink
state `σ`.  `write` stores a named byte blob (and may fail), `close`
terminates the sink (and may fail). -/
structure Archive (σ : Type) where
  write : σ → String → Bytes → Option GoError × σ
  close : σ → Option GoError

/-- `bundle.Options`: the run configuration.  The `Progress` channel and
the `LogOutput` writer are references in Go; only their presence
(`!= nil`) affects the engine, so they are modelled as flags.  `Nodes`
and `NumWorkers` are carried verbatim (`NumWorkers` is a Go `int`, hence
`Int`). -/
structure Options (σ : Type) where
  archive : Archive σ
  progress : Bool
  nodes : List String
  numWorkers : Int
  logOutput : Bool

/-- `bundle.Progress`: one progress event. -/
structure Progress where
  error : Option GoError
  source : String
  state : String
  total : Nat
deriving DecidableEq, Repr

/-- `collectors.Collect`: a task body, from (context, shared options) to
(optional payload, optional error). -/
def Collect (σ : Type) := Ctx → Options σ → Option Bytes × Option GoError

/-- `collectors.Collector`: a task body together with its grouping label
(`source`) and destination path in the archive. -/
structure Collector (σ : Type) where
  collect : Collect σ
  source : String
  destinationPath : String

/-- `collectors.Cluster`: the default cluster-wide grouping label. -/
def Cluster : String := "cluster"

/-- `collectors.NewCollector`. -/
def NewCollector (path : String) (c : Collect σ) : Collector σ :=
  { source := Cluster
    destinationPath := path
    collect := c }

/-- `Collector.Source`. -/
def Collector.Source (c : Collector σ) : String := c.source

/-- Split a character list at `'/'` (separators dropped, empty segments
kept); `acc` holds the current segment reversed. -/
def splitSlashAux : List Char → List Char → List String
  | [], acc => [String.mk acc.reverse]
  | ch :: rest, acc =>
      if ch = '/' then String.mk acc.reverse :: splitSlashAux rest []
      else splitSlashAux rest (ch :: acc)

/-- Split a string at `'/'`. -/
def splitSlash (s : String) : List String := splitSlashAux s.data []

/-- Last element of a segment list (`"/"` when no segment survives, as
for `filepath.Base` of a pure-separator path). -/
def lastSegment : List String → String
  | [] => "/"
  | [a] => a
  | _ :: rest => lastSegment rest

/-- `filepath.Base`, for the clean relative paths used by the collectors:
last non-empty path segment; `"."` for the empty path. -/
def filepathBase (path : String) : String :=
  if path = "" then "."
  else lastSegment ((splitSlash path).filter (fun s => s ≠ ""))

/-- `Collector.String` (the `fmt.Stringer` display identity):
`"collect " + filepath.Base(destinationPath)`. -/
def Collector.toString (c : Collector σ) : String :=
  "collect " ++ filepathBase c.destinationPath

/-- `filepath.Join` for two clean relative segments: join with `"/"`,
dropping an empty side (path cleaning of `".."`/`"."` segments is not
modelled; no collector path uses them). -/
def filepathJoin (a b : String) : String :=
  if a = "" then b else if b = "" then a else a ++ "/" ++ b

/-- `Collector.Run`: invoke the body; a body error is returned with no
write; a nil payload with no error is a successful no-op; otherwise the
payload is written to the archive at the destination path and the write's
error is the result. -/
def Collector.Run (c : Collector σ) (ctx : Ctx) (options : Options σ) (st : σ) :
    Option GoError × σ :=
  match c.collect ctx options with
  | (_, some err) => (some err, st)
  | (none, none) => (none, st)
  | (some data, none) => options.archive.write st c.destinationPath data

/-- `collectors.WithFolder`: prefix every destination path.  The Go code
rewrites the collectors of the slice in place and returns the same slice;
the resulting collector values are modelled as a pure map. -/
def WithFolder (collectors : List (Collector σ)) (path : String) : List (Collector σ) :=
  collectors.map fun c => { c with destinationPath := filepathJoin path c.destinationPath }

/-- `collectors.WithNode`: wrap every body so the context is annotated
with the node before invocation, set the grouping label to the node, and
prefix the destination path with it.  (Pure map, as for `WithFolder`.) -/
def WithNode (collectors : List (Collector σ)) (node : String) : List (Collector σ) :=
  collectors.map fun c =>
    { collect := fun ctx options => c.collect (clientWithNode ctx node) options
      source := node
      destinationPath := filepathJoin node c.destinationPath }

/-- `collectors.WithSource`: override every grouping label.  (Pure map.) -/
def WithSource (collectors : List (Collector σ)) (source : String) : List (Collector σ) :=
  collectors.map fun c => { c with source := source }

/-- One `res[s]++` update of the totals map (`map[string]int` with a
missing key read as `0`), represented as an association list. -/
def bump : List (String × Nat) → String → List (String × Nat)
  | [], s => [(s, 1)]
  | (k, v) :: rest, s =>
      if k == s then (k, v + 1) :: rest else (k, v) :: bump rest s

/-- Read the totals map (`totals[s]`, missing key read as `0`). -/
def lookupTotal (m : List (String × Nat)) (s : String) : Nat :=
  match m.find? (fun kv => kv.1 == s) with
  | some kv => kv.2
  | none => 0

/-- The loop of `calculateTotals` over the variadic collector list.  A
nil collector pointer makes `col.Source()` dereference nil and panic;
the panic is modelled as `none`. -/
def calculateTotalsFrom (res : List (String × Nat)) :
    List (Option (Collector σ)) → Option (List (String × Nat))
  | [] => some res
  | none :: _ => none
  | some c :: rest => calculateTotalsFrom (bump res c.Source) rest

/-- `support.calculateTotals`. -/
def calculateTotals (cols : List (Option (Collector σ))) : Option (List (String × Nat)) :=
  calculateTotalsFrom [] cols

/-- `calculateTotals` on a list with no nil entries (the common case). -/
def totalsOf (cols : List (Collector σ)) : List (String × Nat) :=
  cols.foldl (fun res c => bump res c.Source) []

/-- Sink state of the repository test's in-memory archive: the `files`
map, path to contents. -/
abbrev Store := List (String × Bytes)

/-- `a.files[path] = data` on the association-list model of the map. -/
def storeSet : Store → String → Bytes → Store
  | [], p, d => [(p, d)]
  | (q, e) :: rest, p, d =>
      if q == p then (p, d) :: rest else (q, e) :: storeSet rest p d

/-- `a.files[path]` (`none` when absent). -/
def storeGet (st : Store) (p : String) : Option Bytes :=
  (st.find? (fun kv => kv.1 == p)).map (fun kv => kv.2)

/-- `testArchive` from the repository's test file: `Write` stores into
the map under the path, `Close` returns nil. -/
def testArchive : Archive Store :=
  { write := fun st p d => (none, storeSet st p d)
    close := fun _ => none }

/-- The normalization step at the start of `CreateSupportBundle`:
`if options.NumWorkers == 0 { options.NumWorkers = 1 }`.  `options` is a
pointer, so this writes through to the caller's configuration; the
returned value is the configuration as the rest of the run (and the
caller, afterwards) sees it. -/
def normalizeOptions (o : Options σ) : Options σ :=
  if o.numWorkers = 0 then { o with numWorkers := 1 } else o

/-- Number of workers started by `for i := 0; i < options.NumWorkers; i++`
(zero iterations for a negative count). -/
def workerCount (o : Options σ) : Nat := o.numWorkers.toNat

/-- Status of one worker goroutine: blocked in the `select`, holding a
received collector whose processing has not yet finished, or returned
(with the error the goroutine handed to the errgroup). -/
inductive WStatus (σ : Type) where
  | idle
  | working (c : Collector σ)
  | done (err : Option GoError)

/-- Whether a worker goroutine has returned. -/
def WStatus.isDone : WStatus σ → Bool
  | .done _ => true
  | _ => false

/-- The error a returned worker contributed to the errgroup (`none` for a
still-running worker or a worker that returned nil). -/
def WStatus.errOf : WStatus σ → Option GoError
  | .done (some e) => some e
  | _ => none

/-- The error `errgroup.Wait` reports: the error of some worker that
returned non-nil (all non-nil worker errors in this engine are the same
`ctx.Err()` value, so which one is immaterial). -/
def firstError (ws : List (WStatus σ)) : Option GoError :=
  ws.findSome? WStatus.errOf

/-- Collectors currently held by workers. -/
def inHand (ws : List (WStatus σ)) : List (Collector σ) :=
  ws.filterMap fun w => match w with | .working c => some c | _ => none

/-- Non-nil collectors of a pending (not yet submitted) list. -/
def pendingTasks (ps : List (Option (Collector σ))) : List (Collector σ) :=
  ps.filterMap id

/-- The progress event a worker builds for a processed collector. -/
def mkProgress (totals : List (String × Nat)) (c : Collector σ) (err : Option GoError) :
    Progress :=
  { error := err
    source := c.Source
    state := c.toString
    total := lookupTotal totals c.Source }

/-- Global state of one `CreateSupportBundle` call:

* `pending` — collectors the submitting loop has not yet handed off (in
  submission order; a `none` entry is a nil collector pointer);
* `chanClosed` — whether `close(tasks)` has run;
* `workers` — the worker goroutines;
* `cancelled`/`ctxErr` — whether the shared context is done, and what
  `ctx.Err()` returns;
* `sink` — the output archive's state;
* `progressLog` — the progress events delivered so far, in delivery order;
* `result` — `some r` once `CreateSupportBundle` has returned `r`;
* `closeCount` — how many times `options.Archive.Close()` has been
  invoked. -/
structure EngineState (σ : Type) where
  pending : List (Option (Collector σ))
  chanClosed : Bool
  workers : List (WStatus σ)
  cancelled : Bool
  ctxErr : Option GoError
  sink : σ
  progressLog : List Progress
  result : Option (Option GoError)
  closeCount : Nat

/-- One interleaving step of the running engine.  `o` is the (already
normalized) configuration the workers read, `totals` the frozen Totals
Index.  Constructors:

* `cancel` — the shared context is cancelled or its deadline expires;
* `recvTask`/`recvNil` — the rendezvous on the unbuffered `tasks` channel:
  an idle worker receives the head of the pending list (a nil entry makes
  the worker return nil immediately);
* `recvClosed` — an idle worker receives the zero value from the closed
  channel and returns nil;
* `recvCancelled` — an idle worker takes the `ctx.Done()` branch of the
  `select` and returns `ctx.Err()`;
* `finishTask`/`finishTaskProgress`/`finishTaskAbandon` — a worker runs
  the collector it holds (body plus archive write); with progress enabled
  the event is delivered, unless the context is done and
  `channel.SendWithContext` loses the race, in which case the worker
  returns nil without delivering;
* `closeChan` — the submitting loop, having sent every task, runs
  `close(tasks)`;
* `finishErr`/`finishOk` — `eg.Wait()` returns after all workers have;
  on a worker error that error is returned and the archive is not closed,
  otherwise `options.Archive.Close()` runs and its error is returned. -/
inductive Step (o : Options σ) (totals : List (String × Nat)) :
    EngineState σ → EngineState σ → Prop where
  | cancel (s : EngineState σ) (e : GoError)
      (hx : s.cancelled = false) :
      Step o totals s { s with cancelled := true, ctxErr := some e }
  | recvTask (s : EngineState σ) (w₁ w₂ : List (WStatus σ)) (c : Collector σ)
      (rest : List (Option (Collector σ)))
      (hw : s.workers = w₁ ++ WStatus.idle :: w₂)
      (hcl : s.chanClosed = false)
      (hp : s.pending = some c :: rest) :
      Step o totals s { s with workers := w₁ ++ WStatus.working c :: w₂, pending := rest }
  | recvNil (s : EngineState σ) (w₁ w₂ : List (WStatus σ))
      (rest : List (Option (Collector σ)))
      (hw : s.workers = w₁ ++ WStatus.idle :: w₂)
      (hcl : s.chanClosed = false)
      (hp : s.pending = none :: rest) :
      Step o totals s { s with workers := w₁ ++ WStatus.done none :: w₂, pending := rest }
  | recvClosed (s : EngineState σ) (w₁ w₂ : List (WStatus σ))
      (hw : s.workers = w₁ ++ WStatus.idle :: w₂)
      (hcl : s.chanClosed = true) :
      Step o totals s { s with workers := w₁ ++ WStatus.done none :: w₂ }
  | recvCancelled (s : EngineState σ) (w₁ w₂ : List (WStatus σ))
      (hw : s.workers = w₁ ++ WStatus.idle :: w₂)
      (hx : s.cancelled = true) :
      Step o totals s { s with workers := w₁ ++ WStatus.done s.ctxErr :: w₂ }
  | finishTask (s : EngineState σ) (w₁ w₂ : List (WStatus σ)) (c : Collector σ)
      (hw : s.workers = w₁ ++ WStatus.working c :: w₂)
      (hpr : o.progress = false) :
      Step o totals s
        { s with
            workers := w₁ ++ WStatus.idle :: w₂,
            sink := (c.Run { cancelled := s.cancelled, nodes := [] } o s.sink).2 }
  | finishTaskProgress (s : EngineState σ) (w₁ w₂ : List (WStatus σ)) (c : Collector σ)
      (hw : s.workers = w₁ ++ WStatus.working c :: w₂)
      (hpr : o.progress = true) :
      Step o totals s
        { s with
            workers := w₁ ++ WStatus.idle :: w₂,
            sink := (c.Run { cancelled := s.cancelled, nodes := [] } o s.sink).2,
            progressLog := s.progressLog ++
              [mkProgress totals c
                (c.Run { cancelled := s.cancelled, nodes := [] } o s.sink).1] }
  | finishTaskAbandon (s : EngineState σ) (w₁ w₂ : List (WStatus σ)) (c : Collector σ)
      (hw : s.workers = w₁ ++ WStatus.working c :: w₂)
      (hpr : o.progress = true)
      (hx : s.cancelled = true) :
      Step o totals s
        { s with
            workers := w₁ ++ WStatus.done none :: w₂,
            sink := (c.Run { cancelled := s.cancelled, nodes := [] } o s.sink).2 }
  | closeChan (s : EngineState σ)
      (hp : s.pending = [])
      (hcl : s.chanClosed = false) :
      Step o totals s { s with chanClosed := true }
  | finishErr (s : EngineState σ) (e : GoError)
      (hp : s.pending = [])
      (hcl : s.chanClosed = true)
      (hr : s.result = none)
      (hd : ∀ w ∈ s.workers, w.isDone = true)
      (he : firstError s.workers = some e) :
      Step o totals s { s with result := some (some e) }
  | finishOk (s : EngineState σ)
      (hp : s.pending = [])
      (hcl : s.chanClosed = true)
      (hr : s.result = none)
      (hd : ∀ w ∈ s.workers, w.isDone = true)
      (he : firstError s.workers = none) :
      Step o totals s
        { s with result := some (o.archive.close s.sink), closeCount := s.closeCount + 1 }

/-- The part of `CreateSupportBundle` that runs before any worker:
compute the Totals Index (panicking — `none` — on a nil collector), then
normalize the worker count in place, then build the initial engine state
with `workerCount` idle workers.  Returns the initial state, the frozen
totals, and the configuration as mutated. -/
def CreateSupportBundleStart (o : Options σ) (cols : List (Option (Collector σ)))
    (sink0 : σ) : Option (EngineState σ × List (String × Nat) × Options σ) :=
  match calculateTotals cols with
  | none => none
  | some totals =>
      let o' := normalizeOptions o
      some ({ pending := cols
              chanClosed := false
              workers := List.replicate (workerCount o') WStatus.idle
              cancelled := false
              ctxErr := none
              sink := sink0
              progressLog := []
              result := none
              closeCount := 0 }, totals, o')

/-- `s` is a state some interleaving of `CreateSupportBundle o cols`
(on initial sink state `sink0`) can reach. -/
def Reaches (o : Options σ) (cols : List (Option (Collector σ))) (sink0 : σ)
    (s : EngineState σ) : Prop :=
  ∃ init totals o', CreateSupportBundleStart o cols sink0 = some (init, totals, o') ∧
    Relation.ReflTransGen (Step o' totals) init s

/-- Sequential execution of a list of collectors under a fixed
not-yet-cancelled context: thread the sink state, appending the progress
event of each collector when progress is enabled.  Every interleaving of
the engine linearizes to `runSeq` over its completion order (see the
invariant lemmas below). -/
def runSeq (o : Options σ) (totals : List (String × Nat)) :
    List (Collector σ) → σ × List Progress → σ × List Progress
  | [], acc => acc
  | c :: rest, (st, log) =>
      runSeq o totals rest
        ((c.Run ctx0 o st).2,
         log ++ if o.progress then [mkProgress totals c (c.Run ctx0 o st).1] else [])

/-- The final state of the canonical single-worker schedule: every task
received and processed in submission order by worker 0, the channel then
closed, the worker drained, the archive closed. -/
def canonicalFinal (o : Options σ) (cols : List (Collector σ)) (sink0 : σ) :
    EngineState σ :=
  let o' := normalizeOptions o
  let sl := runSeq o' (totalsOf cols) cols (sink0, [])
  { pending := []
    chanClosed := true
    workers := [WStatus.done none]
    cancelled := false
    ctxErr := none
    sink := sl.1
    progressLog := sl.2
    result := some (o'.archive.close sl.1)
    closeCount := 1 }

theorem calculateTotalsFrom_map_some (cols : List (Collector σ)) :
    ∀ res, calculateTotalsFrom res (cols.map some) =
      some (cols.foldl (fun r c => bump r c.Source) res) := by
  induction cols with
  | nil => intro res; rfl
  | cons c rest ih => intro res; simpa [calculateTotalsFrom] using ih (bump res c.Source)

theorem calculateTotals_map_some (cols : List (Collector σ)) :
    calculateTotals (cols.map some) = some (totalsOf cols) :=
  calculateTotalsFrom_map_some cols []

/-- The single-worker processing loop: from a state whose only worker is
idle, the engine can consume and process the whole pending list in
submission order, accumulating exactly `runSeq`'s sink and log. -/
theorem canonical_run (o : Options σ) (totals : List (String × Nat)) :
    ∀ (cols : List (Collector σ)) (st : σ) (log : List Progress),
      Relation.ReflTransGen (Step o totals)
        { pending := cols.map some, chanClosed := false, workers := [WStatus.idle],
          cancelled := false, ctxErr := none, sink := st, progressLog := log,
          result := none, closeCount := 0 }
        { pending := [], chanClosed := false, workers := [WStatus.idle],
          cancelled := false, ctxErr := none,
          sink := (runSeq o totals cols (st, log)).1,
          progressLog := (runSeq o totals cols (st, log)).2,
          result := none, closeCount := 0 } := by
  intro cols
  induction cols with
  | nil => intro st log; exact Relation.ReflTransGen.refl
  | cons c rest ih =>
      intro st log
      refine Relation.ReflTransGen.head
        (Step.recvTask _ [] [] c (rest.map some) rfl rfl rfl) ?_
      by_cases hpr : o.progress = true
      · refine Relation.ReflTransGen.head
          (Step.finishTaskProgress _ [] [] c rfl hpr) ?_
        simpa [runSeq, hpr] using
          ih (c.Run ctx0 o st).2 (log ++ [mkProgress totals c (c.Run ctx0 o st).1])
      · have hpr' : o.progress = false := by
          cases h : o.progress with
          | true => exact absurd h hpr
          | false => rfl
        refine Relation.ReflTransGen.head
          (Step.finishTask _ [] [] c rfl hpr') ?_
        simpa [runSeq, hpr'] using ih (c.Run ctx0 o st).2 log

/-- The canonical single-worker schedule is a genuine interleaving: with
a (normalized) worker count of 1, `canonicalFinal` is reachable. -/
theorem canonical_reaches (o : Options σ) (cols : List (Collector σ)) (sink0 : σ)
    (h1 : (normalizeOptions o).numWorkers = 1) :
    Reaches o (cols.map some) sink0 (canonicalFinal o cols sink0) := by
  have hstart : CreateSupportBundleStart o (cols.map some) sink0 =
      some ({ pending := cols.map some, chanClosed := false,
              workers := List.replicate (workerCount (normalizeOptions o)) WStatus.idle,
              cancelled := false, ctxErr := none, sink := sink0,
              progressLog := [], result := none, closeCount := 0 },
            totalsOf cols, normalizeOptions o) := by
    unfold CreateSupportBundleStart
    rw [calculateTotals_map_some]
  refine ⟨_, _, _, hstart, ?_⟩
  have hwc : workerCount (normalizeOptions o) = 1 := by
    unfold workerCount; rw [h1]; rfl
  rw [hwc]
  refine Relation.ReflTransGen.trans
    (canonical_run (normalizeOptions o) (totalsOf cols) cols sink0 []) ?_
  refine Relation.ReflTransGen.head (Step.closeChan _ rfl rfl) ?_
  refine Relation.ReflTransGen.head (Step.recvClosed _ [] [] rfl rfl) ?_
  refine Relation.ReflTransGen.head (Step.finishOk _ rfl rfl rfl ?_ ?_) ?_
  · intro w hw
    simp only [List.nil_append, List.mem_singleton] at hw
    rw [hw]; rfl
  · rfl
  · exact Relation.ReflTransGen.refl

@[simp] theorem inHand_nil : inHand ([] : List (WStatus σ)) = [] := rfl

@[simp] theorem inHand_cons_idle (ws : List (WStatus σ)) :
    inHand (WStatus.idle :: ws) = inHand ws := rfl

@[simp] theorem inHand_cons_done (e : Option GoError) (ws : List (WStatus σ)) :
    inHand (WStatus.done e :: ws) = inHand ws := rfl

@[simp] theorem inHand_cons_working (c : Collector σ) (ws : List (WStatus σ)) :
    inHand (WStatus.working c :: ws) = c :: inHand ws := rfl

@[simp] theorem inHand_append (ws₁ ws₂ : List (WStatus σ)) :
    inHand (ws₁ ++ ws₂) = inHand ws₁ ++ inHand ws₂ :=
  List.filterMap_append ws₁ ws₂ _

@[simp] theorem pendingTasks_nil : pendingTasks ([] : List (Option (Collector σ))) = [] := rfl

@[simp] theorem pendingTasks_cons_some (c : Collector σ) (ps : List (Option (Collector σ))) :
    pendingTasks (some c :: ps) = c :: pendingTasks ps := rfl

@[simp] theorem pendingTasks_cons_none (ps : List (Option (Collector σ))) :
    pendingTasks (none :: ps) = pendingTasks ps := rfl

theorem firstError_eq_none_of (ws : List (WStatus σ))
    (h : ∀ w ∈ ws, w.errOf = none) : firstError ws = none := by
  induction ws with
  | nil => rfl
  | cons w ws ih =>
      have hw := h w (List.mem_cons_self w ws)
      have hrest : ∀ x ∈ ws, WStatus.errOf x = none :=
        fun x hx => h x (List.mem_cons_of_mem w hx)
      simp only [firstError, List.findSome?_cons, hw]
      exact ih hrest

theorem forall_mem_middle {α : Type} {P : α → Prop} {l₁ l₂ : List α} {x y : α}
    (h : ∀ a ∈ l₁ ++ x :: l₂, P a) (hy : P y) : ∀ a ∈ l₁ ++ y :: l₂, P a := by
  intro a ha
  rcases List.mem_append.mp ha with h1 | h2
  · exact h a (List.mem_append_left _ h1)
  · rcases List.mem_cons.mp h2 with rfl | h3
    · exact hy
    · exact h a (List.mem_append_right _ (List.mem_cons_of_mem _ h3))

theorem mem_middle_self {α : Type} (l₁ l₂ : List α) (x : α) : x ∈ l₁ ++ x :: l₂ :=
  List.mem_append_right _ (List.mem_cons_self _ _)

/-- Once the shared context is done it stays done. -/
theorem Step.cancelled_mono {o : Options σ} {totals : List (String × Nat)}
    {s s' : EngineState σ} (h : Step o totals s s') :
    s.cancelled = true → s'.cancelled = true := by
  cases h <;> simp_all

theorem runSeq_append (o : Options σ) (totals : List (String × Nat))
    (l₁ l₂ : List (Collector σ)) (acc : σ × List Progress) :
    runSeq o totals (l₁ ++ l₂) acc = runSeq o totals l₂ (runSeq o totals l₁ acc) := by
  induction l₁ generalizing acc with
  | nil => rfl
  | cons c rest ih =>
      obtain ⟨st, log⟩ := acc
      simp only [List.cons_append, runSeq]
      exact ih _

/-- Invariant holding in every reachable state: the archive is closed at
most once, never before the run has produced its result, and a produced
result is determined by the workers' errors exactly as the final
`eg.Wait` / `Archive.Close` sequence computes it, with all workers
finished first. -/
def ResultInv (o : Options σ) (s : EngineState σ) : Prop :=
  s.closeCount ≤ 1
  ∧ (s.result = none → s.closeCount = 0)
  ∧ (∀ r, s.result = some r →
      (∀ w ∈ s.workers, w.isDone = true)
      ∧ (∀ e, firstError s.workers = some e → r = some e ∧ s.closeCount = 0)
      ∧ (firstError s.workers = none → r = o.archive.close s.sink ∧ s.closeCount = 1))

theorem ResultInv_step {o : Options σ} {totals : List (String × Nat)}
    {s s' : EngineState σ} (hstep : Step o totals s s')
    (hinv : ResultInv o s) : ResultInv o s' := by
  obtain ⟨hle, h0, hsome⟩ := hinv
  cases hstep with
  | cancel e hx => exact ⟨hle, h0, hsome⟩
  | recvTask w₁ w₂ c rest hw hcl hp =>
      refine ⟨hle, h0, fun r hr =>
        absurd ((hsome r hr).1 WStatus.idle ?_) (by simp [WStatus.isDone])⟩
      rw [hw]; exact mem_middle_self _ _ _
  | recvNil w₁ w₂ rest hw hcl hp =>
      refine ⟨hle, h0, fun r hr =>
        absurd ((hsome r hr).1 WStatus.idle ?_) (by simp [WStatus.isDone])⟩
      rw [hw]; exact mem_middle_self _ _ _
  | recvClosed w₁ w₂ hw hcl =>
      refine ⟨hle, h0, fun r hr =>
        absurd ((hsome r hr).1 WStatus.idle ?_) (by simp [WStatus.isDone])⟩
      rw [hw]; exact mem_middle_self _ _ _
  | recvCancelled w₁ w₂ hw hx =>
      refine ⟨hle, h0, fun r hr =>
        absurd ((hsome r hr).1 WStatus.idle ?_) (by simp [WStatus.isDone])⟩
      rw [hw]; exact mem_middle_self _ _ _
  | finishTask w₁ w₂ c hw hpr =>
      refine ⟨hle, h0, fun r hr =>
        absurd ((hsome r hr).1 (WStatus.working c) ?_) (by simp [WStatus.isDone])⟩
      rw [hw]; exact mem_middle_self _ _ _
  | finishTaskProgress w₁ w₂ c hw hpr =>
      refine ⟨hle, h0, fun r hr =>
        absurd ((hsome r hr).1 (WStatus.working c) ?_) (by simp [WStatus.isDone])⟩
      rw [hw]; exact mem_middle_self _ _ _
  | finishTaskAbandon w₁ w₂ c hw hpr hx =>
      refine ⟨hle, h0, fun r hr =>
        absurd ((hsome r hr).1 (WStatus.working c) ?_) (by simp [WStatus.isDone])⟩
      rw [hw]; exact mem_middle_self _ _ _
  | closeChan hp hcl => exact ⟨hle, h0, hsome⟩
  | finishErr e hp hcl hr hd he =>
      refine ⟨hle, fun h => by simp at h, ?_⟩
      intro r hr'
      have hre : r = some e := by
        have h' : (some (some e) : Option (Option GoError)) = some r := hr'
        injection h' with h''
        exact h''.symm
      refine ⟨hd, ?_, ?_⟩
      · intro e' he'
        rw [he] at he'
        injection he' with h''
        exact ⟨by rw [hre, h''], h0 hr⟩
      · intro hnone
        rw [he] at hnone
        cases hnone
  | finishOk hp hcl hr hd he =>
      have hc0 := h0 hr
      refine ⟨by simp only; omega, fun h => by simp at h, ?_⟩
      intro r hr'
      have hre : r = o.archive.close s.sink := by
        have h' : (some (o.archive.close s.sink) : Option (Option GoError)) = some r := hr'
        injection h' with h''
        exact h''.symm
      refine ⟨hd, ?_, fun _ => ⟨hre, by simp only; omega⟩⟩
      intro e' he'
      rw [he] at he'
      cases he'

/-- All components returned by `CreateSupportBundleStart`. -/
theorem start_elim {o : Options σ} {cols : List (Option (Collector σ))} {sink0 : σ}
    {init : EngineState σ} {totals : List (String × Nat)} {o' : Options σ}
    (h : CreateSupportBundleStart o cols sink0 = some (init, totals, o')) :
    o' = normalizeOptions o ∧ calculateTotals cols = some totals ∧
    init = { pending := cols, chanClosed := false,
             workers := List.replicate (workerCount (normalizeOptions o)) WStatus.idle,
             cancelled := false, ctxErr := none, sink := sink0, progressLog := [],
             result := none, closeCount := 0 } := by
  unfold CreateSupportBundleStart at h
  cases hct : calculateTotals cols with
  | none => rw [hct] at h; cases h
  | some t =>
      rw [hct] at h
      simp only [Option.some.injEq, Prod.mk.injEq] at h
      obtain ⟨h1, h2, h3⟩ := h
      exact ⟨h3.symm, by rw [h2], h1.symm⟩

theorem ResultInv_trace {o : Options σ} {totals : List (String × Nat)}
    {init s : EngineState σ} (hinit : ResultInv o init)
    (htrace : Relation.ReflTransGen (Step o totals) init s) : ResultInv o s := by
  induction htrace with
  | refl => exact hinit
  | tail h₁ h₂ ih => exact ResultInv_step h₂ ih

/-- Every state reachable by some interleaving satisfies `ResultInv` for
the normalized configuration. -/
theorem ResultInv_reach {o : Options σ} {cols : List (Option (Collector σ))}
    {sink0 : σ} {s : EngineState σ} (h : Reaches o cols sink0 s) :
    ResultInv (normalizeOptions o) s := by
  obtain ⟨init, totals, o', hstart, htrace⟩ := h
  obtain ⟨ho', _, hinit⟩ := start_elim hstart
  subst ho'
  refine ResultInv_trace ?_ htrace
  rw [hinit]
  exact ⟨by simp, fun _ => rfl, fun r hr => by simp at hr⟩

theorem Step.cancelled_back {o : Options σ} {totals : List (String × Nat)}
    {s s' : EngineState σ} (h : Step o totals s s') (h' : s'.cancelled = false) :
    s.cancelled = false := by
  cases hc : s.cancelled
  · rfl
  · have ht := h.cancelled_mono hc
    rw [h'] at ht
    cases ht

@[simp] theorem pendingTasks_map_some (cols : List (Collector σ)) :
    pendingTasks (cols.map some) = cols := by
  induction cols with
  | nil => rfl
  | cons c rest ih => simp only [List.map_cons, pendingTasks_cons_some, ih]

@[simp] theorem inHand_replicate_idle (n : Nat) :
    inHand (List.replicate n (WStatus.idle : WStatus σ)) = [] := by
  induction n with
  | zero => rfl
  | succ n ih => simpa [List.replicate_succ] using ih

theorem inHand_eq_nil_of_done {ws : List (WStatus σ)}
    (h : ∀ w ∈ ws, w.isDone = true) : inHand ws = [] := by
  induction ws with
  | nil => rfl
  | cons w ws ih =>
      have hw := h w (List.mem_cons_self _ _)
      cases w with
      | idle => simp [WStatus.isDone] at hw
      | working c => simp [WStatus.isDone] at hw
      | done e => simpa using ih (fun x hx => h x (List.mem_cons_of_mem _ hx))

/-- Invariant along interleavings whose context is never cancelled: the
collectors split into pending, in some worker's hands, and completed;
sink and progress log are exactly the sequential execution (`runSeq`) of
the completed collectors in completion order; no worker has contributed
an error; the result, once produced, comes with an exhausted pending
list. -/
def NCInv (o : Options σ) (totals : List (String × Nat)) (cols : List (Collector σ))
    (sink0 : σ) (s : EngineState σ) : Prop :=
  ∃ completed : List (Collector σ),
    ((↑(pendingTasks s.pending) + ↑(inHand s.workers) + ↑completed : Multiset (Collector σ))
        = (↑cols : Multiset (Collector σ)))
    ∧ (∀ p ∈ s.pending, p ≠ none)
    ∧ (s.sink, s.progressLog) = runSeq o totals completed (sink0, [])
    ∧ (∀ w ∈ s.workers, w.errOf = none)
    ∧ (∀ r, s.result = some r → s.pending = [])

theorem NCInv_step {o : Options σ} {totals : List (String × Nat)}
    {cols : List (Collector σ)} {sink0 : σ} {s s' : EngineState σ}
    (hstep : Step o totals s s') (hnc : s.cancelled = false)
    (hnc' : s'.cancelled = false)
    (hinv : NCInv o totals cols sink0 s) : NCInv o totals cols sink0 s' := by
  obtain ⟨completed, hms, hnn, hrun, herr, hres5⟩ := hinv
  cases hstep with
  | cancel e hx => simp at hnc'
  | recvTask w₁ w₂ c rest hw hcl hp =>
      refine ⟨completed, ?_, ?_, hrun, ?_, ?_⟩
      · rw [hw, hp] at hms
        simp only [pendingTasks_cons_some, inHand_append, inHand_cons_idle,
          inHand_cons_working] at hms ⊢
        simp only [← Multiset.cons_coe, ← Multiset.coe_add,
          ← Multiset.singleton_add] at hms ⊢
        simp only [add_comm, add_left_comm, add_assoc] at hms ⊢
        exact hms
      · exact fun p hp' => hnn p (by rw [hp]; exact List.mem_cons_of_mem _ hp')
      · rw [hw] at herr
        exact forall_mem_middle herr rfl
      · intro r hr
        exact absurd (hres5 r hr) (by rw [hp]; simp)
  | recvNil w₁ w₂ rest hw hcl hp =>
      exact absurd rfl (hnn none (by rw [hp]; exact List.mem_cons_self _ _))
  | recvClosed w₁ w₂ hw hcl =>
      refine ⟨completed, ?_, hnn, hrun, ?_, hres5⟩
      · rw [hw] at hms
        simp only [inHand_append, inHand_cons_idle, inHand_cons_done] at hms ⊢
        exact hms
      · rw [hw] at herr
        exact forall_mem_middle herr rfl
  | recvCancelled w₁ w₂ hw hx =>
      rw [hnc] at hx
      cases hx
  | finishTask w₁ w₂ c hw hpr =>
      refine ⟨completed ++ [c], ?_, hnn, ?_, ?_, hres5⟩
      · rw [hw] at hms
        simp only [inHand_append, inHand_cons_idle, inHand_cons_working] at hms ⊢
        simp only [← Multiset.cons_coe, ← Multiset.coe_add,
          ← Multiset.singleton_add] at hms ⊢
        simp only [add_comm, add_left_comm, add_assoc] at hms ⊢
        exact hms
      · rw [runSeq_append, ← hrun]
        simp [runSeq, hpr, hnc, ctx0]
      · rw [hw] at herr
        exact forall_mem_middle herr rfl
  | finishTaskProgress w₁ w₂ c hw hpr =>
      refine ⟨completed ++ [c], ?_, hnn, ?_, ?_, hres5⟩
      · rw [hw] at hms
        simp only [inHand_append, inHand_cons_idle, inHand_cons_working] at hms ⊢
        simp only [← Multiset.cons_coe, ← Multiset.coe_add,
          ← Multiset.singleton_add] at hms ⊢
        simp only [add_comm, add_left_comm, add_assoc] at hms ⊢
        exact hms
      · rw [runSeq_append, ← hrun]
        simp [runSeq, hpr, hnc, ctx0]
      · rw [hw] at herr
        exact forall_mem_middle herr rfl
  | finishTaskAbandon w₁ w₂ c hw hpr hx =>
      rw [hnc] at hx
      cases hx
  | closeChan hp hcl =>
      exact ⟨completed, hms, hnn, hrun, herr, hres5⟩
  | finishErr e hp hcl hr hd he =>
      rw [firstError_eq_none_of _ herr] at he
      cases he
  | finishOk hp hcl hr hd he =>
      exact ⟨completed, hms, hnn, hrun, herr, fun r _ => hp⟩

theorem NCInv_trace {o : Options σ} {totals : List (String × Nat)}
    {cols : List (Collector σ)} {sink0 : σ} {init s : EngineState σ}
    (htrace : Relation.ReflTransGen (Step o totals) init s)
    (hinit : NCInv o totals cols sink0 init) :
    s.cancelled = false → NCInv o totals cols sink0 s := by
  induction htrace with
  | refl => exact fun _ => hinit
  | tail hab hbc ih =>
      intro hnc
      have hmid := Step.cancelled_back hbc hnc
      exact NCInv_step hbc hmid hnc (ih hmid)

/-- Every never-cancelled reachable state of a run on a nil-free task
list satisfies `NCInv`. -/
theorem NCInv_reach {o : Options σ} {cols : List (Collector σ)} {sink0 : σ}
    {s : EngineState σ} (h : Reaches o (cols.map some) sink0 s)
    (hnc : s.cancelled = false) :
    NCInv (normalizeOptions o) (totalsOf cols) cols sink0 s := by
  obtain ⟨init, totals, o', hstart, htrace⟩ := h
  obtain ⟨ho', hct, hinit⟩ := start_elim hstart
  subst ho'
  rw [calculateTotals_map_some] at hct
  injection hct with hct'
  subst hct'
  refine NCInv_trace htrace ?_ hnc
  rw [hinit]
  refine ⟨[], by simp, ?_, rfl, ?_, ?_⟩
  · intro p hp
    rcases List.mem_map.mp hp with ⟨c, _, rfl⟩
    simp
  · intro w hw
    rw [List.eq_of_mem_replicate hw]
    rfl
  · intro r hr
    simp at hr

/-- Extraction at a produced result: the whole run linearizes to a
sequential execution of a permutation of the task list, and the result
is the archive-closure error with the archive closed exactly once. -/
theorem NCInv_final {o : Options σ} {totals : List (String × Nat)}
    {cols : List (Collector σ)} {sink0 : σ} {s : EngineState σ} {r : Option GoError}
    (hinv : NCInv o totals cols sink0 s) (hres : ResultInv o s)
    (hr : s.result = some r) :
    ∃ completed : List (Collector σ), List.Perm completed cols
      ∧ (s.sink, s.progressLog) = runSeq o totals completed (sink0, [])
      ∧ r = o.archive.close s.sink ∧ s.closeCount = 1 := by
  obtain ⟨completed, hms, hnn, hrun, herr, hres5⟩ := hinv
  have hpend : s.pending = [] := hres5 r hr
  have hdone := (hres.2.2 r hr).1
  have hfe : firstError s.workers = none := firstError_eq_none_of _ herr
  have hclose := (hres.2.2 r hr).2.2 hfe
  have hih : inHand s.workers = [] := inHand_eq_nil_of_done hdone
  rw [hpend, hih] at hms
  simp only [pendingTasks_nil, Multiset.coe_nil, zero_add] at hms
  exact ⟨completed, Multiset.coe_eq_coe.mp hms, hrun, hclose.1, hclose.2⟩

theorem runSeq_log_noprog {o : Options σ} (hpr : o.progress = false)
    (totals : List (String × Nat)) :
    ∀ (l : List (Collector σ)) (acc : σ × List Progress),
      (runSeq o totals l acc).2 = acc.2 := by
  intro l
  induction l with
  | nil => intro acc; rfl
  | cons c rest ih =>
      rintro ⟨st, log⟩
      simp [runSeq, hpr, ih]

theorem runSeq_progress_stats {o : Options σ} (hpr : o.progress = true)
    (totals : List (String × Nat)) :
    ∀ (l : List (Collector σ)) (st : σ) (log : List Progress),
      ((runSeq o totals l (st, log)).2.length = log.length + l.length)
      ∧ (∀ lbl : String, (runSeq o totals l (st, log)).2.countP (fun e => e.source == lbl)
            = log.countP (fun e => e.source == lbl)
              + l.countP (fun c => c.source == lbl))
      ∧ (∀ e ∈ (runSeq o totals l (st, log)).2,
            e ∈ log ∨ ∃ c ∈ l, ∃ err, e = mkProgress totals c err) := by
  intro l
  induction l with
  | nil =>
      intro st log
      exact ⟨by simp [runSeq], fun lbl => by simp [runSeq], fun e he => Or.inl he⟩
  | cons c rest ih =>
      intro st log
      obtain ⟨ihl, ihc, ihm⟩ :=
        ih (c.Run ctx0 o st).2 (log ++ [mkProgress totals c (c.Run ctx0 o st).1])
      have hunfold : runSeq o totals (c :: rest) (st, log)
          = runSeq o totals rest
              ((c.Run ctx0 o st).2, log ++ [mkProgress totals c (c.Run ctx0 o st).1]) := by
        simp [runSeq, hpr]
      rw [hunfold]
      refine ⟨?_, ?_, ?_⟩
      · rw [ihl]; simp; omega
      · intro lbl
        rw [ihc lbl]
        have hsrc : (mkProgress totals c (c.Run ctx0 o st).1).source = c.source := rfl
        cases h : (c.source == lbl) with
        | true => simp [List.countP_append, List.countP_cons, hsrc, h]; omega
        | false => simp [List.countP_append, List.countP_cons, hsrc, h]
      · intro e he
        rcases ihm e he with hlog | ⟨c', hc', err, heq⟩
        · rcases List.mem_append.mp hlog with h1 | h2
          · exact Or.inl h1
          · refine Or.inr ⟨c, List.mem_cons_self _ _, (c.Run ctx0 o st).1, ?_⟩
            simpa using h2
        · exact Or.inr ⟨c', List.mem_cons_of_mem _ hc', err, heq⟩

theorem storeGet_cons_eq (q : String) (e : Bytes) (rest : Store) (p : String)
    (h : (q == p) = true) : storeGet ((q, e) :: rest) p = some e := by
  unfold storeGet
  rw [@List.find?_cons_of_pos _ (fun kv => kv.1 == p) (q, e) rest h]
  rfl

theorem storeGet_cons_ne (q : String) (e : Bytes) (rest : Store) (p : String)
    (h : (q == p) = false) : storeGet ((q, e) :: rest) p = storeGet rest p := by
  unfold storeGet
  rw [@List.find?_cons_of_neg _ (fun kv => kv.1 == p) (q, e) rest (by simp [h])]

theorem storeSet_cons_eq (q : String) (e : Bytes) (rest : Store) (p : String) (d : Bytes)
    (h : (q == p) = true) : storeSet ((q, e) :: rest) p d = (p, d) :: rest := by
  simp only [storeSet]
  rw [if_pos h]

theorem storeSet_cons_ne (q : String) (e : Bytes) (rest : Store) (p : String) (d : Bytes)
    (h : (q == p) = false) : storeSet ((q, e) :: rest) p d = (q, e) :: storeSet rest p d := by
  simp only [storeSet]
  rw [if_neg (by simp [h])]

theorem storeGet_storeSet_self (st : Store) (p : String) (d : Bytes) :
    storeGet (storeSet st p d) p = some d := by
  induction st with
  | nil => exact storeGet_cons_eq p d [] p (by simp)
  | cons kv rest ih =>
      obtain ⟨q, e⟩ := kv
      cases hqp : (q == p) with
      | true =>
          rw [storeSet_cons_eq q e rest p d hqp]
          exact storeGet_cons_eq p d rest p (by simp)
      | false =>
          rw [storeSet_cons_ne q e rest p d hqp, storeGet_cons_ne q e _ p hqp]
          exact ih

theorem storeSet_fresh (st : Store) (p : String) (d : Bytes)
    (h : storeGet st p = none) : storeSet st p d = st ++ [(p, d)] := by
  induction st with
  | nil => rfl
  | cons kv rest ih =>
      obtain ⟨q, e⟩ := kv
      cases hqp : (q == p) with
      | true => rw [storeGet_cons_eq q e rest p hqp] at h; cases h
      | false =>
          rw [storeGet_cons_ne q e rest p hqp] at h
          rw [storeSet_cons_ne q e rest p d hqp, ih h]
          rfl

theorem storeGet_append (st₁ st₂ : Store) (p : String) :
    storeGet (st₁ ++ st₂) p =
      (match storeGet st₁ p with | some d => some d | none => storeGet st₂ p) := by
  induction st₁ with
  | nil => rfl
  | cons kv rest ih =>
      obtain ⟨q, e⟩ := kv
      cases hqp : (q == p) with
      | true =>
          rw [List.cons_append, storeGet_cons_eq q e _ p hqp, storeGet_cons_eq q e rest p hqp]
      | false =>
          rw [List.cons_append, storeGet_cons_ne q e _ p hqp,
            storeGet_cons_ne q e rest p hqp, ih]

theorem foldl_storeSet_map (payload : Collector Store → Bytes) :
    ∀ (l : List (Collector Store)) (acc : Store),
      (∀ c ∈ l, storeGet acc c.destinationPath = none) →
      (l.map (fun c => c.destinationPath)).Nodup →
      l.foldl (fun a c => storeSet a c.destinationPath (payload c)) acc
        = acc ++ l.map (fun c => (c.destinationPath, payload c)) := by
  intro l
  induction l with
  | nil => intro acc _ _; simp
  | cons c rest ih =>
      intro acc hfresh hnodup
      simp only [List.map_cons, List.nodup_cons] at hnodup
      obtain ⟨hnotin, hnodup'⟩ := hnodup
      simp only [List.foldl_cons]
      rw [storeSet_fresh acc c.destinationPath (payload c)
        (hfresh c (List.mem_cons_self _ _))]
      rw [ih (acc ++ [(c.destinationPath, payload c)]) ?_ hnodup']
      · simp
      · intro c' hc'
        rw [storeGet_append]
        rw [hfresh c' (List.mem_cons_of_mem _ hc')]
        have hne : (c.destinationPath == c'.destinationPath) = false := by
          have : c.destinationPath ≠ c'.destinationPath := by
            intro heq
            exact hnotin (heq ▸ List.mem_map_of_mem (fun x => x.destinationPath) hc')
          simpa using this
        rw [storeGet_cons_ne _ _ _ _ hne]
        rfl

theorem storeGet_map_of_mem (payload : Collector Store → Bytes) :
    ∀ (l : List (Collector Store)),
      (l.map (fun c => c.destinationPath)).Nodup →
      ∀ c ∈ l, storeGet (l.map (fun c' => (c'.destinationPath, payload c')))
          c.destinationPath = some (payload c) := by
  intro l
  induction l with
  | nil => intro _ c hc; cases hc
  | cons c₀ rest ih =>
      intro hnodup c hc
      simp only [List.map_cons, List.nodup_cons] at hnodup
      obtain ⟨hnotin, hnodup'⟩ := hnodup
      rcases List.mem_cons.mp hc with rfl | hcr
      · exact storeGet_cons_eq _ _ _ _ (by simp)
      · have hne : (c₀.destinationPath == c.destinationPath) = false := by
          have : c₀.destinationPath ≠ c.destinationPath := by
            intro heq
            exact hnotin (heq ▸ List.mem_map_of_mem (fun x => x.destinationPath) hcr)
          simpa using this
        simp only [List.map_cons]
        rw [storeGet_cons_ne _ _ _ _ hne]
        exact ih hnodup' c hcr

theorem runSeq_sink_payload {o : Options Store} (harch : o.archive = testArchive)
    (totals : List (String × Nat)) (payload : Collector Store → Bytes) :
    ∀ (l : List (Collector Store)),
      (∀ c ∈ l, ∀ ctx oo, c.collect ctx oo = (some (payload c), none)) →
      ∀ (st : Store) (log : List Progress),
      (runSeq o totals l (st, log)).1 =
        l.foldl (fun acc c => storeSet acc c.destinationPath (payload c)) st := by
  intro l
  induction l with
  | nil => intro _ st log; rfl
  | cons c rest ih =>
      intro hb st log
      have hrun : c.Run ctx0 o st = (none, storeSet st c.destinationPath (payload c)) := by
        unfold Collector.Run
        rw [hb c (List.mem_cons_self _ _) ctx0 o, harch]
        rfl
      simp only [runSeq, hrun, List.foldl_cons]
      exact ih (fun c' hc' => hb c' (List.mem_cons_of_mem _ hc')) _ _

theorem lookupTotal_cons_eq (k : String) (v : Nat) (rest : List (String × Nat))
    (lbl : String) (h : (k == lbl) = true) :
    lookupTotal ((k, v) :: rest) lbl = v := by
  unfold lookupTotal
  rw [@List.find?_cons_of_pos _ (fun kv => kv.1 == lbl) (k, v) rest h]

theorem lookupTotal_cons_ne (k : String) (v : Nat) (rest : List (String × Nat))
    (lbl : String) (h : (k == lbl) = false) :
    lookupTotal ((k, v) :: rest) lbl = lookupTotal rest lbl := by
  unfold lookupTotal
  rw [@List.find?_cons_of_neg _ (fun kv => kv.1 == lbl) (k, v) rest (by simp [h])]

theorem bump_cons_eq (k : String) (v : Nat) (rest : List (String × Nat)) (s : String)
    (h : (k == s) = true) : bump ((k, v) :: rest) s = (k, v + 1) :: rest := by
  simp only [bump]
  rw [if_pos h]

theorem bump_cons_ne (k : String) (v : Nat) (rest : List (String × Nat)) (s : String)
    (h : (k == s) = false) : bump ((k, v) :: rest) s = (k, v) :: bump rest s := by
  simp only [bump]
  rw [if_neg (by simp [h])]

theorem lookupTotal_bump (m : List (String × Nat)) (s lbl : String) :
    lookupTotal (bump m s) lbl = lookupTotal m lbl + (if s == lbl then 1 else 0) := by
  induction m with
  | nil =>
      cases hsl : (s == lbl) with
      | true =>
          rw [show bump [] s = [(s, 1)] from rfl, lookupTotal_cons_eq s 1 [] lbl hsl]
          simp [lookupTotal, hsl]
      | false =>
          rw [show bump [] s = [(s, 1)] from rfl, lookupTotal_cons_ne s 1 [] lbl hsl]
          simp [lookupTotal, hsl]
  | cons kv rest ih =>
      obtain ⟨k, v⟩ := kv
      cases hks : (k == s) with
      | true =>
          have hks' : k = s := by simpa using hks
          rw [bump_cons_eq k v rest s hks]
          cases hkl : (k == lbl) with
          | true =>
              have hsl : (s == lbl) = true := by rw [← hks']; exact hkl
              rw [lookupTotal_cons_eq k (v + 1) rest lbl hkl,
                lookupTotal_cons_eq k v rest lbl hkl]
              simp [hsl]
          | false =>
              have hsl : (s == lbl) = false := by rw [← hks']; exact hkl
              rw [lookupTotal_cons_ne k (v + 1) rest lbl hkl,
                lookupTotal_cons_ne k v rest lbl hkl]
              simp [hsl]
      | false =>
          rw [bump_cons_ne k v rest s hks]
          cases hkl : (k == lbl) with
          | true =>
              have hsl : (s == lbl) = false := by
                cases hsl' : (s == lbl) with
                | false => rfl
                | true =>
                    have hs : s = lbl := by simpa using hsl'
                    have hk : k = lbl := by simpa using hkl
                    have hcontra : (k == s) = true := by simp [hk, hs]
                    rw [hcontra] at hks
                    cases hks
              rw [lookupTotal_cons_eq k v _ lbl hkl, lookupTotal_cons_eq k v rest lbl hkl]
              simp [hsl]
          | false =>
              rw [lookupTotal_cons_ne k v _ lbl hkl, lookupTotal_cons_ne k v rest lbl hkl, ih]

/-- The Totals Index maps each label to the number of collectors
carrying it. -/
theorem lookupTotal_totalsOf (cols : List (Collector σ)) (lbl : String) :
    lookupTotal (totalsOf cols) lbl = cols.countP (fun c => c.source == lbl) := by
  suffices h : ∀ acc : List (String × Nat),
      lookupTotal (cols.foldl (fun r c => bump r c.Source) acc) lbl
        = lookupTotal acc lbl + cols.countP (fun c => c.source == lbl) by
    have h0 : lookupTotal ([] : List (String × Nat)) lbl = 0 := rfl
    simpa [totalsOf, h0] using h []
  induction cols with
  | nil => intro acc; simp
  | cons c rest ih =>
      intro acc
      simp only [List.foldl_cons, List.countP_cons]
      rw [ih (bump acc c.Source), lookupTotal_bump]
      have : Collector.Source c = c.source := rfl
      rw [this]
      cases h : (c.source == lbl) <;> simp <;> omega

theorem normalizeOptions_progress (o : Options σ) :
    (normalizeOptions o).progress = o.progress := by
  unfold normalizeOptions
  by_cases h : o.numWorkers = 0
  · rw [if_pos h]
  · rw [if_neg h]

theorem normalizeOptions_archive (o : Options σ) :
    (normalizeOptions o).archive = o.archive := by
  unfold normalizeOptions
  by_cases h : o.numWorkers = 0
  · rw [if_pos h]
  · rw [if_neg h]

theorem normalizeOptions_nodes (o : Options σ) :
    (normalizeOptions o).nodes = o.nodes := by
  unfold normalizeOptions
  by_cases h : o.numWorkers = 0
  · rw [if_pos h]
  · rw [if_neg h]

theorem normalizeOptions_logOutput (o : Options σ) :
    (normalizeOptions o).logOutput = o.logOutput := by
  unfold normalizeOptions
  by_cases h : o.numWorkers = 0
  · rw [if_pos h]
  · rw [if_neg h]

/-- A run configuration over the test archive, used by concrete
instantiations below. -/
def mkStoreOptions (progress : Bool) (numWorkers : Int) : Options Store :=
  { archive := testArchive
    progress := progress
    nodes := []
    numWorkers := numWorkers
    logOutput := false }

/-- C5: for every task and every context/configuration pair, `Collector.Run`
returns the body's error with no sink write when the body fails; returns
nil with no sink write when the body returns a nil payload and nil error;
and otherwise writes the payload to the sink at the task's destination
path and returns the write's result. -/
theorem c5_collector_run_cases {σ : Type} (c : Collector σ) (ctx : Ctx)
    (options : Options σ) (st : σ) :
    (∀ e d?, c.collect ctx options = (d?, some e) → c.Run ctx options st = (some e, st))
    ∧ (c.collect ctx options = (none, none) → c.Run ctx options st = (none, st))
    ∧ (∀ d, c.collect ctx options = (some d, none) →
        c.Run ctx options st = options.archive.write st c.destinationPath d) := by
  refine ⟨?_, ?_, ?_⟩
  · intro e d? h
    unfold Collector.Run
    rw [h]
    cases d? <;> rfl
  · intro h
    unfold Collector.Run
    rw [h]
  · intro d h
    unfold Collector.Run
    rw [h]

def c5errCollector : Collector Store :=
  NewCollector "e" (fun _ _ => (none, some (GoError.msg "boom")))

def c5nilCollector : Collector Store := NewCollector "n" (fun _ _ => (none, none))

def c5okCollector : Collector Store := NewCollector "k" (fun _ _ => (some [1, 2], none))

theorem c5_collector_run_cases_witness :
    c5errCollector.Run ctx0 (mkStoreOptions false 1) [] = (some (GoError.msg "boom"), [])
    ∧ c5nilCollector.Run ctx0 (mkStoreOptions false 1) [] = (none, [])
    ∧ c5okCollector.Run ctx0 (mkStoreOptions false 1) [] = (none, [("k", [1, 2])]) :=
  ⟨(c5_collector_run_cases c5errCollector ctx0 (mkStoreOptions false 1) []).1
      (GoError.msg "boom") none rfl,
   (c5_collector_run_cases c5nilCollector ctx0 (mkStoreOptions false 1) []).2.1 rfl,
   ((c5_collector_run_cases c5okCollector ctx0 (mkStoreOptions false 1) []).2.2
      [1, 2] rfl).trans rfl⟩

/-- C8: with a worker count of 0 the run behaves identically to a worker
count of 1 — the configuration is normalized to 1 at the start of
`CreateSupportBundle`, the initial engine state coincides, and exactly
the same states are reachable (hence the same outcome and the same final
sink contents). -/
theorem c8_worker_count_default {σ : Type} (o : Options σ)
    (cols : List (Option (Collector σ))) (sink0 : σ) (h : o.numWorkers = 0) :
    normalizeOptions o = { o with numWorkers := 1 }
    ∧ (normalizeOptions o).numWorkers = 1
    ∧ CreateSupportBundleStart o cols sink0
        = CreateSupportBundleStart { o with numWorkers := 1 } cols sink0
    ∧ (∀ s : EngineState σ,
        Reaches o cols sink0 s ↔ Reaches { o with numWorkers := 1 } cols sink0 s) := by
  have h1 : normalizeOptions o = { o with numWorkers := 1 } := by
    unfold normalizeOptions
    rw [if_pos h]
  have h2 : normalizeOptions { o with numWorkers := 1 } = { o with numWorkers := 1 } := by
    unfold normalizeOptions
    rw [if_neg (by simp)]
  have h3 : CreateSupportBundleStart o cols sink0
      = CreateSupportBundleStart { o with numWorkers := 1 } cols sink0 := by
    unfold CreateSupportBundleStart
    rw [h1, h2]
  refine ⟨h1, by rw [h1], h3, fun s => ?_⟩
  unfold Reaches
  rw [h3]

theorem c8_worker_count_default_witness :
    (mkStoreOptions false 0).numWorkers = 0
    ∧ (normalizeOptions (mkStoreOptions false 0)).numWorkers = 1
    ∧ (∀ s : EngineState Store,
        Reaches (mkStoreOptions false 0) [] [] s
          ↔ Reaches { mkStoreOptions false 0 with numWorkers := 1 } [] [] s) :=
  ⟨rfl, (c8_worker_count_default (mkStoreOptions false 0) [] [] rfl).2.1,
   (c8_worker_count_default (mkStoreOptions false 0) [] [] rfl).2.2.2⟩

/-- C9 counterexample: the claim says no field of the configuration is
modified between invocation and return, but `CreateSupportBundle`
rewrites `options.NumWorkers` (through the caller's pointer) from 0 to 1
at the start of the run, so the configuration visible to the caller
afterwards differs from the one passed in. -/
theorem c9_config_mutated_counterexample :
    (mkStoreOptions false 0).numWorkers = 0
    ∧ (normalizeOptions (mkStoreOptions false 0)).numWorkers = 1
    ∧ normalizeOptions (mkStoreOptions false 0) ≠ mkStoreOptions false 0 := by
  refine ⟨rfl, rfl, fun h => ?_⟩
  have hn := congrArg (fun oo : Options Store => oo.numWorkers) h
  exact absurd hn (by decide)

/-- C9 amended: the configuration is read-only during the run except for
the worker count: a worker count of 0 is rewritten to 1 in the caller's
configuration at the start of `Execute`; every other field, and a
nonzero worker count, are never modified. -/
theorem c9_config_readonly_amended {σ : Type} (o : Options σ) :
    (normalizeOptions o).archive = o.archive
    ∧ (normalizeOptions o).progress = o.progress
    ∧ (normalizeOptions o).nodes = o.nodes
    ∧ (normalizeOptions o).logOutput = o.logOutput
    ∧ (o.numWorkers ≠ 0 → normalizeOptions o = o)
    ∧ (o.numWorkers = 0 → (normalizeOptions o).numWorkers = 1) := by
  refine ⟨normalizeOptions_archive o, normalizeOptions_progress o,
    normalizeOptions_nodes o, normalizeOptions_logOutput o, ?_, ?_⟩
  · intro hne
    unfold normalizeOptions
    rw [if_neg hne]
  · intro h0
    unfold normalizeOptions
    rw [if_pos h0]

theorem c9_config_readonly_amended_witness :
    ((mkStoreOptions true 3).numWorkers ≠ 0
      ∧ normalizeOptions (mkStoreOptions true 3) = mkStoreOptions true 3)
    ∧ ((mkStoreOptions true 0).numWorkers = 0
      ∧ (normalizeOptions (mkStoreOptions true 0)).numWorkers = 1) :=
  ⟨⟨by decide, (c9_config_readonly_amended (mkStoreOptions true 3)).2.2.2.2.1 (by decide)⟩,
   ⟨rfl, (c9_config_readonly_amended (mkStoreOptions true 0)).2.2.2.2.2 rfl⟩⟩

/-- C1: on a task list with pairwise-distinct destination paths whose
bodies all return a non-nil payload and a nil error, any interleaving of
`CreateSupportBundle` over the test archive that produces a result
without the context ever being cancelled, and with no progress channel
configured, returns success, and the sink afterwards holds exactly one
entry per task — keyed by the task's destination path and containing
that task's payload bytes. -/
theorem c1_full_run_sink_contents (o : Options Store) (cols : List (Collector Store))
    (payload : Collector Store → Bytes) (s : EngineState Store) (r : Option GoError)
    (harch : o.archive = testArchive)
    (hprog : o.progress = false)
    (hdist : (cols.map (fun c => c.destinationPath)).Nodup)
    (hbody : ∀ c ∈ cols, ∀ ctx oo, c.collect ctx oo = (some (payload c), none))
    (hreach : Reaches o (cols.map some) [] s)
    (hres : s.result = some r)
    (hnc : s.cancelled = false) :
    r = none
    ∧ s.sink.length = cols.length
    ∧ ∀ c ∈ cols, storeGet s.sink c.destinationPath = some (payload c) := by
  obtain ⟨completed, hperm, hrun, hr, _⟩ :=
    NCInv_final (NCInv_reach hreach hnc) (ResultInv_reach hreach) hres
  have harch' : (normalizeOptions o).archive = testArchive := by
    rw [normalizeOptions_archive]; exact harch
  have hbody' : ∀ c ∈ completed, ∀ ctx oo, c.collect ctx oo = (some (payload c), none) :=
    fun c hc => hbody c (hperm.mem_iff.mp hc)
  have hnodup' : (completed.map (fun c => c.destinationPath)).Nodup :=
    ((hperm.map (fun c => c.destinationPath)).nodup_iff).mpr hdist
  have hsink : s.sink = completed.map (fun c => (c.destinationPath, payload c)) := by
    have h1 := congrArg Prod.fst hrun
    simp only at h1
    rw [h1, runSeq_sink_payload harch' (totalsOf cols) payload completed hbody' [] []]
    rw [foldl_storeSet_map payload completed [] (fun c _ => rfl) hnodup']
    simp
  refine ⟨?_, ?_, ?_⟩
  · rw [hr, harch']
    rfl
  · rw [hsink, List.length_map, hperm.length_eq]
  · intro c hc
    rw [hsink]
    exact storeGet_map_of_mem payload completed hnodup' c (hperm.mem_iff.mpr hc)

def c1cols : List (Collector Store) :=
  [NewCollector "a" (fun _ _ => (some [10], none)),
   NewCollector "b" (fun _ _ => (some [20], none))]

def c1payload : Collector Store → Bytes := fun c => (c.collect ctx0 (mkStoreOptions false 1)).1.getD []

theorem c1_full_run_sink_contents_witness :
    ((c1cols.map (fun c => c.destinationPath)).Nodup
      ∧ (canonicalFinal (mkStoreOptions false 1) c1cols []).result = some none
      ∧ (canonicalFinal (mkStoreOptions false 1) c1cols []).cancelled = false)
    ∧ ((none : Option GoError) = none
      ∧ (canonicalFinal (mkStoreOptions false 1) c1cols []).sink.length = c1cols.length
      ∧ ∀ c ∈ c1cols,
          storeGet (canonicalFinal (mkStoreOptions false 1) c1cols []).sink
            c.destinationPath = some (c1payload c)) :=
  ⟨⟨by decide, rfl, rfl⟩,
   c1_full_run_sink_contents (mkStoreOptions false 1) c1cols c1payload
     (canonicalFinal (mkStoreOptions false 1) c1cols []) none rfl rfl (by decide)
     (by
       intro c hc ctx oo
       rcases List.mem_cons.mp hc with rfl | hc'
       · rfl
       · rcases List.mem_cons.mp hc' with rfl | hc''
         · rfl
         · cases hc'')
     (canonical_reaches (mkStoreOptions false 1) c1cols [] rfl) rfl rfl⟩

/-- C2: a task's failure (body error or write error) never becomes the
run-level result: in any interleaving that produces a result without the
context ever being cancelled, the result is exactly the archive-closure
error (so success whenever the sink's close succeeds); the per-task
errors surface only inside the progress events of the linearized run,
and with no progress channel configured the progress log stays empty —
the errors are discarded. -/
theorem c2_task_errors_nonfatal {σ : Type} (o : Options σ) (cols : List (Collector σ))
    (sink0 : σ) (s : EngineState σ) (r : Option GoError)
    (hreach : Reaches o (cols.map some) sink0 s)
    (hres : s.result = some r)
    (hnc : s.cancelled = false) :
    r = (normalizeOptions o).archive.close s.sink
    ∧ ((normalizeOptions o).archive.close s.sink = none → r = none)
    ∧ (o.progress = false → s.progressLog = [])
    ∧ (o.progress = true → ∃ completed : List (Collector σ), List.Perm completed cols
        ∧ (s.sink, s.progressLog)
            = runSeq (normalizeOptions o) (totalsOf cols) completed (sink0, [])) := by
  obtain ⟨completed, hperm, hrun, hr, _⟩ :=
    NCInv_final (NCInv_reach hreach hnc) (ResultInv_reach hreach) hres
  refine ⟨hr, fun h => by rw [hr, h], ?_, fun _ => ⟨completed, hperm, hrun⟩⟩
  intro hpr
  have hpr' : (normalizeOptions o).progress = false := by
    rw [normalizeOptions_progress]; exact hpr
  have hlog := congrArg Prod.snd hrun
  simp only at hlog
  rw [hlog, runSeq_log_noprog hpr' (totalsOf cols) completed (sink0, [])]

def c2cols : List (Collector Store) :=
  [NewCollector "bad" (fun _ _ => (none, some (GoError.msg "collect failed"))),
   NewCollector "good" (fun _ _ => (some [7], none))]

theorem c2_task_errors_nonfatal_witness :
    ((canonicalFinal (mkStoreOptions false 1) c2cols []).result = some none
      ∧ (canonicalFinal (mkStoreOptions false 1) c2cols []).cancelled = false)
    ∧ ((testArchive.close (canonicalFinal (mkStoreOptions false 1) c2cols []).sink = none
          → (none : Option GoError) = none)
      ∧ ((mkStoreOptions false 1).progress = false
          → (canonicalFinal (mkStoreOptions false 1) c2cols []).progressLog = [])) :=
  ⟨⟨rfl, rfl⟩,
   ⟨(c2_task_errors_nonfatal (mkStoreOptions false 1) c2cols []
       (canonicalFinal (mkStoreOptions false 1) c2cols []) none
       (canonical_reaches (mkStoreOptions false 1) c2cols [] rfl) rfl rfl).2.1,
    (c2_task_errors_nonfatal (mkStoreOptions false 1) c2cols []
       (canonicalFinal (mkStoreOptions false 1) c2cols []) none
       (canonical_reaches (mkStoreOptions false 1) c2cols [] rfl) rfl rfl).2.2.1⟩⟩

/-- C6: the Totals Index maps every grouping label to the number of
tasks carrying it, and in any interleaving with progress enabled that
produces a result without cancellation, exactly one progress event is
emitted per task, every event's `Total` equals the Totals Index entry
for the event's label, and each label appears in exactly as many events
as there are tasks carrying it (so 1000 tasks in 100 groups of 10 yield
1000 events, each with `Total = 10`, 10 events per group). -/
theorem c6_totals_progress {σ : Type} (o : Options σ) (cols : List (Collector σ))
    (sink0 : σ) (s : EngineState σ) (r : Option GoError)
    (hpr : o.progress = true)
    (hreach : Reaches o (cols.map some) sink0 s)
    (hres : s.result = some r)
    (hnc : s.cancelled = false) :
    (∀ lbl, lookupTotal (totalsOf cols) lbl = cols.countP (fun c => c.source == lbl))
    ∧ s.progressLog.length = cols.length
    ∧ (∀ e ∈ s.progressLog, e.total = cols.countP (fun c => c.source == e.source))
    ∧ (∀ lbl, s.progressLog.countP (fun e => e.source == lbl)
          = cols.countP (fun c => c.source == lbl)) := by
  obtain ⟨completed, hperm, hrun, _, _⟩ :=
    NCInv_final (NCInv_reach hreach hnc) (ResultInv_reach hreach) hres
  have hpr' : (normalizeOptions o).progress = true := by
    rw [normalizeOptions_progress]; exact hpr
  have hlog := congrArg Prod.snd hrun
  simp only at hlog
  obtain ⟨hlen, hcnt, hmem⟩ := runSeq_progress_stats hpr' (totalsOf cols) completed sink0 []
  refine ⟨fun lbl => lookupTotal_totalsOf cols lbl, ?_, ?_, ?_⟩
  · rw [hlog, hlen]
    simp [hperm.length_eq]
  · intro e he
    rw [hlog] at he
    rcases hmem e he with h | ⟨c, hc, err, rfl⟩
    · cases h
    · have h1 : (mkProgress (totalsOf cols) c err).total
          = lookupTotal (totalsOf cols) c.source := rfl
      have h2 : (mkProgress (totalsOf cols) c err).source = c.source := rfl
      rw [h1, h2, lookupTotal_totalsOf]
  · intro lbl
    rw [hlog, hcnt lbl]
    simp [hperm.countP_eq]

def c6mkGroup (g : Nat) (n : Nat) : List (Collector Store) :=
  WithSource ((List.range n).map
    (fun i => NewCollector (Nat.repr (g * n + i)) (fun _ _ => (some [1], none))))
    (Nat.repr (g + 1))

/-- The task list of the repository's `TestCollectWithProgress`, at scale
`g` groups of `n` tasks: task `i` has path `toString i` and grouping
label `toString (i / n + 1)`. -/
def c6cols (g n : Nat) : List (Collector Store) :=
  (List.range g).flatMap (fun k => c6mkGroup k n)

theorem c6_totals_progress_witness :
    ((mkStoreOptions true 1).progress = true
      ∧ (canonicalFinal (mkStoreOptions true 1) (c6cols 3 2) []).result = some none)
    ∧ ((canonicalFinal (mkStoreOptions true 1) (c6cols 3 2) []).progressLog.length
          = (c6cols 3 2).length
      ∧ ∀ lbl, (canonicalFinal (mkStoreOptions true 1) (c6cols 3 2) []).progressLog.countP
            (fun e => e.source == lbl)
          = (c6cols 3 2).countP (fun c => c.source == lbl)) :=
  ⟨⟨rfl, rfl⟩,
   ⟨(c6_totals_progress (mkStoreOptions true 1) (c6cols 3 2) []
       (canonicalFinal (mkStoreOptions true 1) (c6cols 3 2) []) none rfl
       (canonical_reaches (mkStoreOptions true 1) (c6cols 3 2) [] rfl) rfl rfl).2.1,
    (c6_totals_progress (mkStoreOptions true 1) (c6cols 3 2) []
       (canonicalFinal (mkStoreOptions true 1) (c6cols 3 2) []) none rfl
       (canonical_reaches (mkStoreOptions true 1) (c6cols 3 2) [] rfl) rfl rfl).2.2.2⟩⟩

def c7body : Collect Store := fun _ _ => (some [9], none)

def c7base : List (Collector Store) := [NewCollector "1" c7body]

def c7cols : List (Collector Store) := WithNode c7base "n1"

/-- C7: `WithNode` rewrites each task so that its grouping label is the
node, its destination path is the node path-joined with the original
path, and its body invokes the original body with the context annotated
with the node; in particular a collector with bare path `"1"` scoped
under node `"n1"` yields, in a complete run, the final sink entry at
`"n1/1"`, and its progress/Totals group is `"n1"`. -/
theorem c7_withNode_scope {σ : Type} (cols : List (Collector σ)) (node : String) :
    ((WithNode cols node).length = cols.length
     ∧ ∀ (i : Nat) (h : i < cols.length) (h2 : i < (WithNode cols node).length),
         ((WithNode cols node).get ⟨i, h2⟩).source = node
         ∧ ((WithNode cols node).get ⟨i, h2⟩).destinationPath
             = filepathJoin node ((cols.get ⟨i, h⟩).destinationPath)
         ∧ ((WithNode cols node).get ⟨i, h2⟩).collect
             = fun ctx options =>
                 (cols.get ⟨i, h⟩).collect (clientWithNode ctx node) options)
    ∧ (Reaches (mkStoreOptions false 1) (c7cols.map some) []
          (canonicalFinal (mkStoreOptions false 1) c7cols [])
       ∧ storeGet (canonicalFinal (mkStoreOptions false 1) c7cols []).sink "n1/1"
           = some [9]
       ∧ (canonicalFinal (mkStoreOptions false 1) c7cols []).result = some none
       ∧ lookupTotal (totalsOf c7cols) "n1" = 1) := by
  refine ⟨⟨?_, ?_⟩, canonical_reaches _ _ _ rfl, rfl, rfl, rfl⟩
  · simp [WithNode]
  · intro i h h2
    refine ⟨?_, ?_, ?_⟩ <;> simp [WithNode, List.getElem_map]

theorem c7len1 : (0 : Nat) < c7base.length := by decide

theorem c7len2 : (0 : Nat) < (WithNode c7base "n1").length := by decide

theorem c7_withNode_scope_witness :
    (0 : Nat) < c7base.length
    ∧ ((WithNode c7base "n1").get ⟨0, c7len2⟩).source = "n1"
    ∧ ((WithNode c7base "n1").get ⟨0, c7len2⟩).destinationPath
        = filepathJoin "n1" ((c7base.get ⟨0, c7len1⟩).destinationPath) :=
  ⟨c7len1,
   ((c7_withNode_scope c7base "n1").1.2 0 c7len1 c7len2).1,
   ((c7_withNode_scope c7base "n1").1.2 0 c7len1 c7len2).2.1⟩

theorem singleton_eq_middle {α : Type} {a x : α} {l₁ l₂ : List α}
    (h : [a] = l₁ ++ x :: l₂) : x = a := by
  cases l₁ with
  | nil =>
      injection h with h1 _
      exact h1.symm
  | cons b l₁' =>
      injection h with _ h2
      have hlen := congrArg List.length h2
      simp [List.length_append] at hlen
      omega

def c3taskA : Collector Store := NewCollector "a" (fun _ _ => (some [1], none))

def c3taskB : Collector Store := NewCollector "b" (fun _ _ => (some [2], none))

/-- The state the engine is wedged in after the context is cancelled
before any task is consumed and the only worker takes the `ctx.Done()`
branch: the submitting loop still has both tasks to send on the
unbuffered channel, but no receiver will ever arrive, and the submitter
itself never selects on the context — no step is enabled, and
`CreateSupportBundle` never returns. -/
def c3stuck : EngineState Store :=
  { pending := [some c3taskA, some c3taskB]
    chanClosed := false
    workers := [WStatus.done (some GoError.canceled)]
    cancelled := true
    ctxErr := some GoError.canceled
    sink := []
    progressLog := []
    result := none
    closeCount := 0 }

/-- C3 (divergence): cancelling the context before the tasks are
consumed can leave the run in a reachable state from which no step is
enabled: the worker already returned `ctx.Err()`, both tasks are
unsubmitted, no result is ever produced, and `Close` is never invoked —
`CreateSupportBundle` does not return the cancellation error, it blocks
forever on the task handoff. -/
theorem c3_cancellation_deadlock :
    Reaches (mkStoreOptions false 1) [some c3taskA, some c3taskB] [] c3stuck
    ∧ c3stuck.result = none
    ∧ c3stuck.pending = [some c3taskA, some c3taskB]
    ∧ c3stuck.closeCount = 0
    ∧ (∀ s' : EngineState Store,
        ¬ Step (normalizeOptions (mkStoreOptions false 1))
          (totalsOf [c3taskA, c3taskB]) c3stuck s') := by
  refine ⟨?_, rfl, rfl, rfl, ?_⟩
  · refine ⟨{ pending := [some c3taskA, some c3taskB], chanClosed := false,
              workers := [WStatus.idle], cancelled := false, ctxErr := none,
              sink := [], progressLog := [], result := none, closeCount := 0 },
            totalsOf [c3taskA, c3taskB],
            normalizeOptions (mkStoreOptions false 1), rfl, ?_⟩
    refine Relation.ReflTransGen.head (Step.cancel _ GoError.canceled rfl) ?_
    refine Relation.ReflTransGen.head (Step.recvCancelled _ [] [] rfl rfl) ?_
    exact Relation.ReflTransGen.refl
  · intro s' hstep
    cases hstep with
    | cancel e hx => exact Bool.noConfusion hx
    | recvTask w₁ w₂ c rest hw hcl hp =>
        exact WStatus.noConfusion (singleton_eq_middle hw)
    | recvNil w₁ w₂ rest hw hcl hp =>
        exact WStatus.noConfusion (singleton_eq_middle hw)
    | recvClosed w₁ w₂ hw hcl => exact Bool.noConfusion hcl
    | recvCancelled w₁ w₂ hw hx =>
        exact WStatus.noConfusion (singleton_eq_middle hw)
    | finishTask w₁ w₂ c hw hpr =>
        exact WStatus.noConfusion (singleton_eq_middle hw)
    | finishTaskProgress w₁ w₂ c hw hpr => exact Bool.noConfusion hpr
    | finishTaskAbandon w₁ w₂ c hw hpr hx => exact Bool.noConfusion hpr
    | closeChan hp hcl => exact List.noConfusion hp
    | finishErr e hp hcl hr hd he => exact List.noConfusion hp
    | finishOk hp hcl hr hd he => exact List.noConfusion hp

def c4taskA : Collector Store := NewCollector "a" (fun _ _ => (some [1], none))

def c4taskB : Collector Store := NewCollector "b" (fun _ _ => (some [2], none))

/-- The state the engine is wedged in when, with progress enabled and
the context cancelled, the only worker consumes the first task, loses
the progress-delivery race to cancellation and returns nil: no worker
terminated with a run-level error, but the second task can never be
submitted and the archive's `Close` can never run. -/
def c4stuck : EngineState Store :=
  { pending := [some c4taskB]
    chanClosed := false
    workers := [WStatus.done none]
    cancelled := true
    ctxErr := some GoError.canceled
    sink := [("a", [1])]
    progressLog := []
    result := none
    closeCount := 0 }

/-- C4 counterexample: a reachable, terminally-stuck state in which no
worker terminated with a run-level error and yet the output sink's
`Close` has not been invoked and never will be — refuting "for every run
in which no worker terminates with a run-level error, Close is invoked
exactly once". -/
theorem c4_close_counterexample :
    Reaches (mkStoreOptions true 1) [some c4taskA, some c4taskB] [] c4stuck
    ∧ (∀ w ∈ c4stuck.workers, WStatus.errOf w = none)
    ∧ c4stuck.result = none
    ∧ c4stuck.closeCount = 0
    ∧ (∀ s' : EngineState Store,
        ¬ Step (normalizeOptions (mkStoreOptions true 1))
          (totalsOf [c4taskA, c4taskB]) c4stuck s') := by
  refine ⟨?_, ?_, rfl, rfl, ?_⟩
  · refine ⟨{ pending := [some c4taskA, some c4taskB], chanClosed := false,
              workers := [WStatus.idle], cancelled := false, ctxErr := none,
              sink := [], progressLog := [], result := none, closeCount := 0 },
            totalsOf [c4taskA, c4taskB],
            normalizeOptions (mkStoreOptions true 1), rfl, ?_⟩
    refine Relation.ReflTransGen.head (Step.cancel _ GoError.canceled rfl) ?_
    refine Relation.ReflTransGen.head
      (Step.recvTask _ [] [] c4taskA [some c4taskB] rfl rfl rfl) ?_
    refine Relation.ReflTransGen.head
      (Step.finishTaskAbandon _ [] [] c4taskA rfl rfl rfl) ?_
    exact Relation.ReflTransGen.refl
  · intro w hw
    rw [List.mem_singleton.mp hw]
    rfl
  · intro s' hstep
    cases hstep with
    | cancel e hx => exact Bool.noConfusion hx
    | recvTask w₁ w₂ c rest hw hcl hp =>
        exact WStatus.noConfusion (singleton_eq_middle hw)
    | recvNil w₁ w₂ rest hw hcl hp =>
        exact WStatus.noConfusion (singleton_eq_middle hw)
    | recvClosed w₁ w₂ hw hcl => exact Bool.noConfusion hcl
    | recvCancelled w₁ w₂ hw hx =>
        exact WStatus.noConfusion (singleton_eq_middle hw)
    | finishTask w₁ w₂ c hw hpr => exact Bool.noConfusion hpr
    | finishTaskProgress w₁ w₂ c hw hpr =>
        exact WStatus.noConfusion (singleton_eq_middle hw)
    | finishTaskAbandon w₁ w₂ c hw hpr hx =>
        exact WStatus.noConfusion (singleton_eq_middle hw)
    | closeChan hp hcl => exact List.noConfusion hp
    | finishErr e hp hcl hr hd he => exact List.noConfusion hp
    | finishOk hp hcl hr hd he => exact List.noConfusion hp

/-- C4 amended: in every run in which `Execute` actually returns a
result: the result is produced only after every worker has finished;
`Close` is invoked at most once overall; if no worker terminated with a
run-level error it is invoked exactly once and its error is the run's
result; if some worker terminated with a run-level error, `Close` is
never invoked and that error is returned instead.  (In interleavings
where cancellation makes every worker exit while tasks remain unsent,
`Execute` never returns and `Close` is never invoked — see the
counterexample.) -/
theorem c4_close_semantics_amended {σ : Type} (o : Options σ)
    (cols : List (Option (Collector σ))) (sink0 : σ) (s : EngineState σ)
    (r : Option GoError)
    (hreach : Reaches o cols sink0 s) (hres : s.result = some r) :
    (∀ w ∈ s.workers, w.isDone = true)
    ∧ s.closeCount ≤ 1
    ∧ (firstError s.workers = none
        → s.closeCount = 1 ∧ r = (normalizeOptions o).archive.close s.sink)
    ∧ (∀ e, firstError s.workers = some e → s.closeCount = 0 ∧ r = some e) := by
  obtain ⟨hle, h0, hsome⟩ := ResultInv_reach hreach
  obtain ⟨hd, hse, hne⟩ := hsome r hres
  exact ⟨hd, hle, fun h => ⟨(hne h).2, (hne h).1⟩, fun e he => ⟨(hse e he).2, (hse e he).1⟩⟩

def c4okCols : List (Collector Store) := [NewCollector "w" (fun _ _ => (some [3], none))]

theorem c4_close_semantics_amended_witness :
    ((canonicalFinal (mkStoreOptions false 1) c4okCols []).result = some none
      ∧ firstError (canonicalFinal (mkStoreOptions false 1) c4okCols []).workers = none)
    ∧ ((canonicalFinal (mkStoreOptions false 1) c4okCols []).closeCount = 1
      ∧ (none : Option GoError)
          = (normalizeOptions (mkStoreOptions false 1)).archive.close
              (canonicalFinal (mkStoreOptions false 1) c4okCols []).sink) :=
  ⟨⟨rfl, rfl⟩,
   (c4_close_semantics_amended (mkStoreOptions false 1) (c4okCols.map some) []
      (canonicalFinal (mkStoreOptions false 1) c4okCols []) none
      (canonical_reaches (mkStoreOptions false 1) c4okCols [] rfl) rfl).2.2.1 rfl⟩

theorem calculateTotalsFrom_none {σ : Type} (cols : List (Option (Collector σ)))
    (hnil : none ∈ cols) : ∀ res, calculateTotalsFrom res cols = none := by
  induction cols with
  | nil => cases hnil
  | cons c rest ih =>
      intro res
      cases c with
      | none => rfl
      | some c' =>
          rcases List.mem_cons.mp hnil with h | h
          · cases h
          · show calculateTotalsFrom (bump res c'.Source) rest = none
            exact ih h (bump res c'.Source)

/-- C10 counterexample: a task list containing a nil collector never
reaches any worker — `calculateTotals` dereferences the nil pointer
(`col.Source()`) before the workers are started, so the run panics and
no engine state is ever reached; the claimed worker-side behaviour for
nil input entries cannot occur. -/
theorem c10_nil_task_counterexample :
    CreateSupportBundleStart (mkStoreOptions false 1)
        [(none : Option (Collector Store))] [] = none
    ∧ ∀ s : EngineState Store,
        ¬ Reaches (mkStoreOptions false 1) [(none : Option (Collector Store))] [] s := by
  refine ⟨rfl, fun s hr => ?_⟩
  obtain ⟨init, totals, o', hstart, _⟩ := hr
  rw [show CreateSupportBundleStart (mkStoreOptions false 1)
    [(none : Option (Collector Store))] [] = none from rfl] at hstart
  cases hstart

/-- C10 amended: a task list containing a nil entry makes the engine
panic in the totals pass before any worker starts (so tasks after it
never execute and the nil never reaches a worker); the worker-side nil
check fires only for the closed-channel sentinel: a worker that receives
a nil value terminates immediately with no error, executes no body,
performs no sink write, and emits no progress event. -/
theorem c10_nil_task_amended {σ : Type} (o : Options σ)
    (cols : List (Option (Collector σ))) (sink0 : σ) (hnil : none ∈ cols) :
    CreateSupportBundleStart o cols sink0 = none
    ∧ (∀ (o' : Options σ) (totals : List (String × Nat)) (s : EngineState σ)
         (w₁ w₂ : List (WStatus σ)) (rest : List (Option (Collector σ))),
        s.workers = w₁ ++ WStatus.idle :: w₂ → s.chanClosed = false →
        s.pending = none :: rest →
        Step o' totals s
            { s with
                workers := w₁ ++ WStatus.done none :: w₂,
                pending := rest }
          ∧ ({ s with
                workers := w₁ ++ WStatus.done none :: w₂,
                pending := rest } : EngineState σ).sink = s.sink
          ∧ ({ s with
                workers := w₁ ++ WStatus.done none :: w₂,
                pending := rest } : EngineState σ).progressLog = s.progressLog
          ∧ ({ s with
                workers := w₁ ++ WStatus.done none :: w₂,
                pending := rest } : EngineState σ).result = s.result) := by
  constructor
  · unfold CreateSupportBundleStart calculateTotals
    rw [calculateTotalsFrom_none cols hnil []]
  · intro o' totals s w₁ w₂ rest hw hcl hp
    exact ⟨Step.recvNil s w₁ w₂ rest hw hcl hp, rfl, rfl, rfl⟩

def c10state : EngineState Store :=
  { pending := [none]
    chanClosed := false
    workers := [WStatus.idle]
    cancelled := false
    ctxErr := none
    sink := []
    progressLog := []
    result := none
    closeCount := 0 }

theorem c10_nil_task_amended_witness :
    ((none : Option (Collector Store)) ∈ [(none : Option (Collector Store))])
    ∧ CreateSupportBundleStart (mkStoreOptions false 1)
        [(none : Option (Collector Store))] [] = none
    ∧ Step (mkStoreOptions false 1) [] c10state
        { c10state with workers := [] ++ WStatus.done none :: [], pending := [] } :=
  ⟨List.mem_singleton.mpr rfl,
   (c10_nil_task_amended (mkStoreOptions false 1)
      [(none : Option (Collector Store))] [] (List.mem_singleton.mpr rfl)).1,
   ((c10_nil_task_amended (mkStoreOptions false 1)
      [(none : Option (Collector Store))] [] (List.mem_singleton.mpr rfl)).2
      (mkStoreOptions false 1) [] c10state [] [] [] rfl rfl rfl).1⟩

end Support
